import Mathlib

/-!
Verification of the text-chunking and hybrid-retrieval pipeline of the
Business-Knowledge-Platform backend.

Python strings are modelled as `List Char`; Python `int` as `Nat`/`Int`
(with Python's clamping slice semantics made explicit); relevance scores
(Python floats that are only ever assigned the literal `0.8` or compared)
as `Rat`.  Database tables are modelled as lists in insertion order, which
is the order the unordered SQLAlchemy queries of the code return rows in.
The embedding gateway and the vector index are modelled as oracles passed
in as values: `Option` for the query-embedding outcome (`none` = the
gateway returned `None` or raised, both of which the code treats alike)
and a response function for the index.
-/

namespace BKP

/-! ### Python string primitives (faithful `List Char` models) -/

/-- The whitespace characters stripped by Python's `str.strip()` (ASCII part). -/
def isPySpace (c : Char) : Bool :=
  c == ' ' || c == '\t' || c == '\n' || c == '\r' || c == '\x0b' || c == '\x0c'

/-- Python `s.strip()`: remove leading and trailing whitespace. -/
def pyStrip (t : List Char) : List Char :=
  ((t.dropWhile isPySpace).reverse.dropWhile isPySpace).reverse

/-- Python slice `t[a:b]` for non-negative bounds (clamps out-of-range). -/
def pySlice (t : List Char) (a b : Nat) : List Char :=
  (t.take b).drop a

/-- Python `t.rfind(c, a, b)`: highest index `i` with `a ≤ i < b` and
`t[i] = c`, or `-1` if there is none. -/
def rfind (t : List Char) (c : Char) (a b : Nat) : Int :=
  match ((List.range' a (b - a)).filter (fun i => t.get? i == some c)).getLast? with
  | some i => (i : Int)
  | none => -1

/-- Python `hay.find(needle)` (case handled by the caller): lowest index at
which `needle` occurs as a contiguous substring, or `-1`. -/
def pyFind (hay needle : List Char) : Int :=
  match (List.range (hay.length + 1)).find? (fun i => needle.isPrefixOf (hay.drop i)) with
  | some i => (i : Int)
  | none => -1

/-! ### `chunk_text` (app/utils/file_processor.py, lines 167-208) -/

/-- The loop body of `chunk_text`.  At each `start < len(text)` it computes
the candidate end `start + chunk_size`; when that is not past the end of the
text it snaps the cut to the last `.`/newline (if within the final 200
characters of the window, keeping the terminator) or else to the last space
(if within the final 100 characters), appends the stripped slice when
non-empty, and advances to `max(start + 1, end - overlap)` unless the end
reached the end of the text. -/
def chunkLoop (t : List Char) (size overlap : Nat) : Nat → Nat → List (List Char)
  | 0, _ => []
  | fuel + 1, start =>
    if start < t.length then
      let e0 := start + size
      let e : Nat :=
        if e0 < t.length then
          let lastPeriod := rfind t '.' start e0
          let lastNewline := rfind t '\n' start e0
          let lastSpace := rfind t ' ' start e0
          let breakPoint := max lastPeriod lastNewline
          if breakPoint > (start : Int) + (size : Int) - 200 then (breakPoint + 1).toNat
          else if lastSpace > (start : Int) + (size : Int) - 100 then lastSpace.toNat
          else e0
        else e0
      let ch := pyStrip (pySlice t start e)
      let rest :=
        if t.length ≤ e then [] else chunkLoop t size overlap fuel (max (start + 1) (e - overlap))
      if ch.isEmpty then rest else ch :: rest
    else []

/-- `chunk_text(text, chunk_size, overlap)`: empty for blank input, the whole
trimmed text when it fits in one chunk, otherwise the boundary-snapping
sliding-window loop.  `t.length` iterations always suffice because every
iteration advances `start` by at least one (`chunkLoop_fuel` below shows the
fuel is irrelevant beyond that point, which is the termination argument). -/
def chunk_text (text : List Char) (size : Nat := 1000) (overlap : Nat := 200) : List (List Char) :=
  if pyStrip text = [] then []
  else
    let t := pyStrip text
    if t.length ≤ size then [t]
    else chunkLoop t size overlap t.length 0

/-- The end-of-window rule as the specification states it for a non-final
window starting at `start`: `breakPoint` is the later of the last `.` and the
last line break in `[start, start + size)` (Python's `-1` when absent); if
`breakPoint > start + size - 200` the cut is `breakPoint + 1`; otherwise if
the last space satisfies `lastSpace > start + size - 100` the cut is at that
space; otherwise the raw boundary `start + size`. -/
def specEnd (t : List Char) (start size : Nat) : Nat :=
  let lastPeriod := rfind t '.' start (start + size)
  let lastNewline := rfind t '\n' start (start + size)
  let lastSpace := rfind t ' ' start (start + size)
  let breakPoint := max lastPeriod lastNewline
  if breakPoint > (start : Int) + (size : Int) - 200 then (breakPoint + 1).toNat
  else if lastSpace > (start : Int) + (size : Int) - 100 then lastSpace.toNat
  else start + size

/-- The trace of `[start, end)` windows carved by the `chunk_text` loop,
with the same fuel discipline as `chunkLoop`. -/
def chunkWindows (t : List Char) (size overlap : Nat) : Nat → Nat → List (Nat × Nat)
  | 0, _ => []
  | fuel + 1, start =>
    if start < t.length then
      let e := if start + size < t.length then specEnd t start size else start + size
      (start, e) ::
        (if t.length ≤ e then []
         else chunkWindows t size overlap fuel (max (start + 1) (e - overlap)))
    else []

/-! ### `_extract_snippet` (app/routers/search.py, lines 170-196) -/

/-- The three-dot ellipsis literal used by the code. -/
def dots : List Char := ['.', '.', '.']

/-- `_extract_snippet(content, query, snippet_length)`: case-insensitive
substring search; on a hit, a `snippet_length`-wide window roughly centred
on the hit, with ellipses marking truncation on either side; otherwise the
first `snippet_length` characters (plus ellipsis when truncated). -/
def extract_snippet (content query : List Char) (snippet_length : Nat := 200) : List Char :=
  if content.isEmpty || query.isEmpty then
    if snippet_length < content.length then content.take snippet_length ++ dots else content
  else
    let pos := pyFind (content.map Char.toLower) (query.map Char.toLower)
    if pos = -1 then
      if snippet_length < content.length then content.take snippet_length ++ dots else content
    else
      let start := pos.toNat - snippet_length / 2
      let e := start + snippet_length
      let snippet := pySlice content start e
      let snippet1 := if 0 < start then dots ++ snippet else snippet
      let snippet2 := if e < content.length then snippet1 ++ dots else snippet1
      snippet2

/-- The snippet function exactly as the specification sentence describes it:
search case-insensitively; if found at `pos`, return the window of `content`
starting at `max(0, pos - snippetLength/2)` extending `snippetLength`
characters, with an ellipsis prepended iff the window start is positive and
appended iff the window end is below the content length; if not found, or
`content`/`query` is empty, the first `snippetLength` characters with an
ellipsis appended iff the content is longer than `snippetLength`. -/
def extractSnippetSpec (content query : List Char) (snippetLength : Nat) : List Char :=
  let found : Option Nat :=
    if content = [] ∨ query = [] then none
    else
      let pos := pyFind (content.map Char.toLower) (query.map Char.toLower)
      if pos = -1 then none else some pos.toNat
  match found with
  | none => if snippetLength < content.length then content.take snippetLength ++ dots else content
  | some pos =>
    let s := pos - snippetLength / 2
    (if 0 < s then dots else []) ++ pySlice content s (s + snippetLength) ++
      (if s + snippetLength < content.length then dots else [])

/-! ### Data model (app/models.py, app/schemas.py) -/

/-- A row of the `documents` table (the fields the retrieval pipeline reads). -/
structure Doc where
  id : Nat
  user_id : Nat
  original_filename : List Char
  content : List Char
deriving DecidableEq, Repr

/-- A row of the `document_chunks` table.  `embedding` is the parsed JSON
vector; `none` models a NULL/empty column (the code's `if chunk.embedding:`
falsy test). -/
structure Chunk where
  id : Nat
  document_id : Nat
  content : List Char
  embedding : Option (List Int)
deriving DecidableEq, Repr

/-- The `SearchResult` response schema. -/
structure SearchResult where
  document_id : Nat
  filename : List Char
  content_snippet : List Char
  relevance_score : Rat
deriving DecidableEq, Repr

/-- One hit returned by `VectorService.search_similar`. -/
structure VecHit where
  id : Nat
  score : Rat
deriving DecidableEq, Repr

/-- A query issued to the vector index: the query vector, `top_k`, and the
`user_id` metadata filter. -/
structure VecQuery where
  vec : List Int
  top_k : Nat
  user : Nat
deriving DecidableEq, Repr

/-- The database state visible to the retrieval pipeline: the `documents`
and `document_chunks` tables, each in insertion order. -/
structure DB where
  docs : List Doc
  chunks : List Chunk
deriving Repr

/-- `db.query(DocumentChunk).filter(DocumentChunk.id == cid).first()`. -/
def findChunk (db : DB) (cid : Nat) : Option Chunk :=
  db.chunks.find? (fun c => c.id == cid)

/-- Resolve a chunk's owning document (`chunk.document`). -/
def findDoc (db : DB) (did : Nat) : Option Doc :=
  db.docs.find? (fun d => d.id == did)

/-! ### Stable descending sort (`results.sort(key=..., reverse=True)`) -/

/-- Insert a result before the first strictly-lower-scored element,
preserving the order of equal scores (stability). -/
def insertDesc (r : SearchResult) : List SearchResult → List SearchResult
  | [] => [r]
  | x :: xs =>
    if x.relevance_score ≤ r.relevance_score then r :: x :: xs else x :: insertDesc r xs

/-- Stable sort by descending `relevance_score`, the unique result of
Python's stable `list.sort(key=lambda x: x.relevance_score, reverse=True)`. -/
def sortDesc (l : List SearchResult) : List SearchResult :=
  l.foldr insertDesc []

/-! ### `search_documents` (app/routers/search.py, lines 15-108) -/

/-- The fixed lexical relevance score (`0.8` in the code). -/
def lexScore : Rat := mkRat 4 5

/-- Substring containment, the model of the store's `.contains` filter. -/
def containsSub (hay needle : List Char) : Bool :=
  (List.range (hay.length + 1)).any (fun i => needle.isPrefixOf (hay.drop i))

/-- The lexical pass: the owner's documents whose filename or content
contains the query, limited to `limit` rows (`.contains` containment,
insertion order). -/
def textResults (db : DB) (uid : Nat) (q : List Char) (limit : Nat) : List Doc :=
  (db.docs.filter
    (fun d => d.user_id == uid &&
      (containsSub d.original_filename q || containsSub d.content q))).take limit

/-- The `SearchResult`s built from the lexical pass: static score `0.8` and a
query-centred `_extract_snippet` snippet. -/
def lexSearchResults (db : DB) (uid : Nat) (q : List Char) (limit : Nat) : List SearchResult :=
  (textResults db uid q limit).map (fun d =>
    { document_id := d.id
      filename := d.original_filename
      content_snippet := extract_snippet d.content q 200
      relevance_score := lexScore })

/-- The semantic-pass snippet: the first 200 characters of the chunk content
with `"..."` appended when the content is longer than 200 characters. -/
def semSnippet (c : List Char) : List Char :=
  if 200 < c.length then c.take 200 ++ dots else c

/-- Process one vector hit of the semantic pass: resolve the chunk and its
document, and append a new result unless the document is already present
(first-found-wins dedup keyed by `document_id`). -/
def semanticStep (db : DB) (acc : List SearchResult) (hit : VecHit) : List SearchResult :=
  match findChunk db hit.id with
  | none => acc
  | some ch =>
    match findDoc db ch.document_id with
    | none => acc
    | some d =>
      if (acc.find? (fun r => r.document_id == d.id)).isSome then acc
      else
        acc ++ [{ document_id := d.id
                  filename := d.original_filename
                  content_snippet := semSnippet ch.content
                  relevance_score := hit.score }]

/-- The merged (pre-sort, pre-truncation) result list of `search_documents`.
`semReply` models the semantic pass's interaction with the collaborators:
`none` when `create_embedding` returned `None`/falsy or raised (the broad
`except` swallows it), `some hits` for a successful `search_similar` reply
(which is `[]` when the vector index itself failed). -/
def mergedResults (db : DB) (uid : Nat) (q : List Char) (limit : Nat) (search_type : String)
    (semReply : Option (List VecHit)) : List SearchResult :=
  let res1 :=
    if search_type = "text" ∨ search_type = "hybrid" then lexSearchResults db uid q limit else []
  if search_type = "semantic" ∨ search_type = "hybrid" then
    match semReply with
    | none => res1
    | some hits => hits.foldl (semanticStep db) res1
  else res1

/-- `search_documents`: merge the lexical and semantic passes, sort by
descending relevance score, and truncate to `limit`. -/
def search_documents (db : DB) (uid : Nat) (q : List Char) (limit : Nat) (search_type : String)
    (semReply : Option (List VecHit)) : List SearchResult :=
  (sortDesc (mergedResults db uid q limit search_type semReply)).take limit

/-! ### `find_similar_documents` (app/routers/search.py, lines 110-168) -/

/-- Process one vector hit of the similarity pass: resolve the chunk and its
document, discard hits on the source document itself, then dedup-append. -/
def similarStep (db : DB) (docId : Nat) (acc : List SearchResult) (hit : VecHit) :
    List SearchResult :=
  match findChunk db hit.id with
  | none => acc
  | some rc =>
    match findDoc db rc.document_id with
    | none => acc
    | some d =>
      if d.id ≠ docId then
        if (acc.find? (fun r => r.document_id == d.id)).isSome then acc
        else
          acc ++ [{ document_id := d.id
                    filename := d.original_filename
                    content_snippet := semSnippet rc.content
                    relevance_score := hit.score }]
      else acc

/-- The `find_similar_documents` endpoint: its per-chunk body first.  The
endpoint is 404 (`none`) when the document does not exist
or is not owned by the caller; otherwise take the first 3 chunks of the
document, and for each one that has a stored embedding query the vector
index (`idx`, modelled as a response function) for `limit * 2` neighbours
filtered by the owner, accumulating deduplicated matches; finally sort
descending and truncate to `limit`.  The returned pair also records the
queries issued to the vector index, in order. -/
def similarChunkStep (db : DB) (docId limit uid : Nat) (idx : VecQuery → List VecHit)
    (st : List SearchResult × List VecQuery) (ch : Chunk) :
    List SearchResult × List VecQuery :=
  match ch.embedding with
  | none => st
  | some emb =>
    let query : VecQuery := { vec := emb, top_k := limit * 2, user := uid }
    ((idx query).foldl (similarStep db docId) st.1, st.2 ++ [query])

/-- See the contract above: the whole `find_similar_documents` endpoint. -/
def find_similar_documents (db : DB) (docId limit uid : Nat)
    (idx : VecQuery → List VecHit) : Option (List SearchResult × List VecQuery) :=
  match db.docs.find? (fun d => d.id == docId && d.user_id == uid) with
  | none => none
  | some _ =>
    let chs := (db.chunks.filter (fun c => c.document_id == docId)).take 3
    let st := chs.foldl (similarChunkStep db docId limit uid idx) ([], [])
    some ((sortDesc st.1).take limit, st.2)

/-! ### Reconstruction predicate for the chunking-coverage claim -/

/-- Can the target text be written as the concatenation of the given chunks
after dropping, from each chunk except the first, some prefix (its overlap
region with its predecessor)?  Auxiliary: every chunk may drop a prefix. -/
def canReconAux : List (List Char) → List Char → Bool
  | [], rest => rest.isEmpty
  | c :: cs, rest =>
    (List.range (c.length + 1)).any (fun k =>
      (c.drop k).isPrefixOf rest && canReconAux cs (rest.drop (c.length - k)))

/-- The first chunk must match in full (it has no predecessor, hence no
overlap region to drop); every later chunk may drop a prefix. -/
def canRecon (chunks : List (List Char)) (target : List Char) : Bool :=
  match chunks with
  | [] => target.isEmpty
  | c :: cs => c.isPrefixOf target && canReconAux cs (target.drop c.length)

/-! ### Lemmas about the stable descending sort -/

/-- The descending-score order used by the final `results.sort`. -/
def scoreGe (a b : SearchResult) : Prop := b.relevance_score ≤ a.relevance_score

theorem insertDesc_perm (r : SearchResult) (l : List SearchResult) :
    List.Perm (insertDesc r l) (r :: l) := by
  induction l with
  | nil => exact List.Perm.refl _
  | cons x xs ih =>
    rw [insertDesc]
    split
    · exact List.Perm.refl _
    · exact (ih.cons x).trans (List.Perm.swap r x xs)

theorem sortDesc_perm (l : List SearchResult) : List.Perm (sortDesc l) l := by
  induction l with
  | nil => exact List.Perm.refl _
  | cons x xs ih => exact (insertDesc_perm x (sortDesc xs)).trans (ih.cons x)

theorem insertDesc_sorted {r : SearchResult} {l : List SearchResult}
    (h : l.Sorted scoreGe) : (insertDesc r l).Sorted scoreGe := by
  induction l with
  | nil => simp [insertDesc, scoreGe]
  | cons x xs ih =>
    rw [List.sorted_cons] at h
    rw [insertDesc]
    split
    · rename_i hle
      rw [List.sorted_cons]
      refine ⟨?_, List.sorted_cons.mpr h⟩
      intro b hb
      rcases List.mem_cons.mp hb with hb | hb
      · subst hb; exact hle
      · exact le_trans (h.1 b hb) hle
    · rename_i hgt
      rw [List.sorted_cons]
      refine ⟨?_, ih h.2⟩
      intro b hb
      rcases List.mem_cons.mp ((insertDesc_perm r xs).mem_iff.mp hb) with hb | hb
      · subst hb; exact le_of_not_le hgt
      · exact h.1 b hb

theorem sortDesc_sorted (l : List SearchResult) : (sortDesc l).Sorted scoreGe := by
  induction l with
  | nil => simp [sortDesc]
  | cons x xs ih => exact insertDesc_sorted ih

theorem sortDesc_of_const {l : List SearchResult} {c : Rat}
    (h : ∀ r ∈ l, r.relevance_score = c) : sortDesc l = l := by
  induction l with
  | nil => rfl
  | cons x xs ih =>
    have hxs : sortDesc xs = xs := ih (fun r hr => h r (List.mem_cons_of_mem _ hr))
    show insertDesc x (sortDesc xs) = x :: xs
    rw [hxs]
    cases xs with
    | nil => rfl
    | cons y ys =>
      rw [insertDesc, if_pos]
      rw [h x (List.mem_cons_self _ _), h y (List.mem_cons_of_mem _ (List.mem_cons_self _ _))]

/-! ### C9: results sorted descending and truncated to `limit` -/

/-- C9: for every search call (any mode), the returned sequence of matches is
sorted in descending order of `relevance_score` and has at most `limit`
elements. -/
theorem search_results_sorted_and_limited (db : DB) (uid : Nat) (q : List Char) (limit : Nat)
    (search_type : String) (semReply : Option (List VecHit)) :
    (search_documents db uid q limit search_type semReply).Sorted scoreGe ∧
      (search_documents db uid q limit search_type semReply).length ≤ limit := by
  constructor
  · exact List.Pairwise.sublist (List.take_sublist _ _)
      (sortDesc_sorted (mergedResults db uid q limit search_type semReply))
  · rw [search_documents, List.length_take]
    exact min_le_left _ _

/-! ### C6: graceful degradation to lexical-only results -/

theorem lexSearchResults_score {db uid q limit} :
    ∀ r ∈ lexSearchResults db uid q limit, r.relevance_score = lexScore := by
  intro r hr
  rcases List.mem_map.mp hr with ⟨d, _, rfl⟩
  rfl

theorem lexSearchResults_length_le (db : DB) (uid : Nat) (q : List Char) (limit : Nat) :
    (lexSearchResults db uid q limit).length ≤ limit := by
  rw [lexSearchResults, List.length_map, textResults, List.length_take]
  exact min_le_left _ _

/-- C6: in hybrid mode, when the query embedding comes back `None` (or the
embedding call raises), or the vector index fails (an empty reply), the call
returns exactly the lexical-pass matches. -/
theorem hybrid_degrades_to_lexical (db : DB) (uid : Nat) (q : List Char) (limit : Nat)
    (semReply : Option (List VecHit))
    (h : semReply = none ∨ semReply = some []) :
    search_documents db uid q limit "hybrid" semReply = lexSearchResults db uid q limit := by
  have hmerged : mergedResults db uid q limit "hybrid" semReply =
      lexSearchResults db uid q limit := by
    rcases h with rfl | rfl <;> simp [mergedResults]
  rw [search_documents, hmerged, sortDesc_of_const lexSearchResults_score,
    List.take_of_length_le (lexSearchResults_length_le db uid q limit)]

/-- Witness for C6 at a concrete database and query. -/
def dbC6 : DB :=
  { docs := [⟨1, 7, "c.txt".toList, "x c".toList⟩,
             ⟨2, 7, "a.txt".toList, "x a".toList⟩,
             ⟨3, 7, "b.txt".toList, "zzz".toList⟩],
    chunks := [⟨10, 2, "chunk of a".toList, some [1]⟩,
               ⟨11, 3, "chunk of b".toList, some [2]⟩] }

theorem hybrid_degrades_to_lexical_witness :
    search_documents dbC6 7 ['x'] 2 "hybrid" none = lexSearchResults dbC6 7 ['x'] 2 :=
  hybrid_degrades_to_lexical dbC6 7 ['x'] 2 none (Or.inl rfl)

/-! ### C1: hybrid dedup, first-found (lexical) instance wins -/

/-- A database with three documents of one owner: documents 1 and 2 match
the query `"x"` lexically; chunks 10 and 11 belong to documents 2 and 3. -/
def dbC1 : DB :=
  { docs := [⟨1, 7, "c.txt".toList, "x c".toList⟩,
             ⟨2, 7, "a.txt".toList, "x a".toList⟩,
             ⟨3, 7, "b.txt".toList, "zzz".toList⟩],
    chunks := [⟨10, 2, "chunk of a".toList, some [1]⟩,
               ⟨11, 3, "chunk of b".toList, some [2]⟩] }

/-- A vector reply hitting document 2 (score 0.9) and document 3 (0.95). -/
def hitsC1 : List VecHit := [⟨10, mkRat 9 10⟩, ⟨11, mkRat 19 20⟩]

/-- C1 counterexample: in this hybrid call both the lexical pass and the
semantic pass hit document 2, yet the returned sequence contains zero
matches for document 2 (not exactly one): documents 1 and 2 enter with the
lexical score 0.8, the semantic pass adds document 3 with 0.95 and is
deduplicated against document 2, and the final sort-then-truncate to
`limit = 2` keeps document 3 and the earlier-inserted document 1, displacing
document 2 entirely. -/
theorem hybrid_dedup_counterexample :
    2 ∈ (textResults dbC1 7 ['x'] 2).map Doc.id ∧
      (hitsC1.filterMap (fun h => (findChunk dbC1 h.id).map Chunk.document_id)).contains 2 = true ∧
      (search_documents dbC1 7 ['x'] 2 "hybrid" (some hitsC1)).countP
        (fun r => r.document_id == 2) = 0 := by
  decide

theorem semanticStep_count_inv {db : DB} {d : Nat} {acc : List SearchResult} {hit : VecHit}
    (h : acc.countP (fun r => r.document_id == d) = 1 ∧
      ∀ r ∈ acc, r.document_id = d → r.relevance_score = lexScore) :
    (semanticStep db acc hit).countP (fun r => r.document_id == d) = 1 ∧
      ∀ r ∈ semanticStep db acc hit, r.document_id = d → r.relevance_score = lexScore := by
  rcases hch : findChunk db hit.id with _ | ch
  · have hstep : semanticStep db acc hit = acc := by simp [semanticStep, hch]
    rw [hstep]
    exact h
  rcases hdd : findDoc db ch.document_id with _ | dd
  · have hstep : semanticStep db acc hit = acc := by simp [semanticStep, hch, hdd]
    rw [hstep]
    exact h
  by_cases hfound : (acc.find? (fun r => r.document_id == dd.id)).isSome = true
  case pos =>
    have hstep : semanticStep db acc hit = acc := by simp [semanticStep, hch, hdd, hfound]
    rw [hstep]
    exact h
  case neg =>
    have hstep : semanticStep db acc hit =
        acc ++ [{ document_id := dd.id, filename := dd.original_filename,
                  content_snippet := semSnippet ch.content, relevance_score := hit.score }] := by
      simp [semanticStep, hch, hdd, hfound]
    rw [hstep]
    have hne : dd.id ≠ d := by
      intro hEq
      have hex : ∃ r ∈ acc, (fun r : SearchResult => r.document_id == d) r := by
        rw [← List.countP_pos_iff, h.1]
        exact Nat.one_pos
      rcases hex with ⟨r, hr, hrd⟩
      refine hfound ?_
      rw [List.find?_isSome]
      exact ⟨r, hr, by rw [hEq]; exact hrd⟩
    constructor
    · rw [List.countP_append, h.1]
      have hnew : (fun r : SearchResult => r.document_id == d)
          { document_id := dd.id, filename := dd.original_filename,
            content_snippet := semSnippet ch.content, relevance_score := hit.score } = false := by
        simpa using hne
      simp [hnew]
    · intro r hr hrd
      rcases List.mem_append.mp hr with hr | hr
      · exact h.2 r hr hrd
      · rcases List.mem_singleton.mp hr with rfl
        exact absurd hrd hne

theorem foldl_semanticStep_count_inv (db : DB) (d : Nat) (hits : List VecHit)
    {acc : List SearchResult}
    (h : acc.countP (fun r => r.document_id == d) = 1 ∧
      ∀ r ∈ acc, r.document_id = d → r.relevance_score = lexScore) :
    (hits.foldl (semanticStep db) acc).countP (fun r => r.document_id == d) = 1 ∧
      ∀ r ∈ hits.foldl (semanticStep db) acc,
        r.document_id = d → r.relevance_score = lexScore := by
  induction hits generalizing acc with
  | nil => exact h
  | cons hit hits ih => exact ih (semanticStep_count_inv h)

theorem lexSearchResults_countP_eq_one {db : DB} {uid : Nat} {q : List Char} {limit d : Nat}
    (hnodup : (db.docs.map Doc.id).Nodup)
    (hlex : d ∈ (textResults db uid q limit).map Doc.id) :
    (lexSearchResults db uid q limit).countP (fun r => r.document_id == d) = 1 := by
  have hmap : (lexSearchResults db uid q limit).map SearchResult.document_id =
      (textResults db uid q limit).map Doc.id := by
    rw [lexSearchResults, List.map_map]
    rfl
  have hsub : List.Sublist ((textResults db uid q limit).map Doc.id) (db.docs.map Doc.id) := by
    rw [textResults]
    exact ((List.take_sublist _ _).trans (List.filter_sublist _)).map Doc.id
  have hnd : ((textResults db uid q limit).map Doc.id).Nodup := hnodup.sublist hsub
  have h1 : ((textResults db uid q limit).map Doc.id).count d = 1 :=
    List.count_eq_one_of_mem hnd hlex
  calc (lexSearchResults db uid q limit).countP (fun r => r.document_id == d)
      = ((lexSearchResults db uid q limit).map SearchResult.document_id).countP
          (fun i => i == d) := by
        rw [List.countP_map]; rfl
    _ = ((textResults db uid q limit).map Doc.id).count d := by rw [hmap]; rfl
    _ = 1 := h1

/-- C1 amended: in hybrid mode, when the lexical pass hits `d` (and the
semantic pass may hit it too), the merged sequence before truncation
contains exactly one match for `d`; the returned sequence therefore
contains at most one match for `d`, and any such match carries the frozen
lexical score 0.8 — but truncation to `limit` may displace it entirely. -/
theorem hybrid_dedup_amended (db : DB) (uid : Nat) (q : List Char) (limit : Nat)
    (hits : List VecHit) (d : Nat)
    (hnodup : (db.docs.map Doc.id).Nodup)
    (hlex : d ∈ (textResults db uid q limit).map Doc.id)
    (hsem : ∃ h ∈ hits, (findChunk db h.id).map Chunk.document_id = some d) :
    (mergedResults db uid q limit "hybrid" (some hits)).countP
        (fun r => r.document_id == d) = 1 ∧
      (search_documents db uid q limit "hybrid" (some hits)).countP
        (fun r => r.document_id == d) ≤ 1 ∧
      ∀ r ∈ search_documents db uid q limit "hybrid" (some hits),
        r.document_id = d → r.relevance_score = lexScore := by
  have hmerged : mergedResults db uid q limit "hybrid" (some hits) =
      hits.foldl (semanticStep db) (lexSearchResults db uid q limit) := by
    simp [mergedResults]
  have hbase : (lexSearchResults db uid q limit).countP (fun r => r.document_id == d) = 1 ∧
      ∀ r ∈ lexSearchResults db uid q limit, r.document_id = d → r.relevance_score = lexScore :=
    ⟨lexSearchResults_countP_eq_one hnodup hlex, fun r hr _ => lexSearchResults_score r hr⟩
  have hinv := foldl_semanticStep_count_inv db d hits hbase
  refine ⟨hmerged ▸ hinv.1, ?_, ?_⟩
  · calc (search_documents db uid q limit "hybrid" (some hits)).countP
          (fun r => r.document_id == d)
        ≤ (sortDesc (mergedResults db uid q limit "hybrid" (some hits))).countP
          (fun r => r.document_id == d) := (List.take_sublist _ _).countP_le _
      _ = (mergedResults db uid q limit "hybrid" (some hits)).countP
          (fun r => r.document_id == d) := (sortDesc_perm _).countP_eq _
      _ = 1 := hmerged ▸ hinv.1
  · intro r hr hrd
    have hr2 : r ∈ mergedResults db uid q limit "hybrid" (some hits) :=
      (sortDesc_perm _).mem_iff.mp (List.mem_of_mem_take hr)
    exact (hmerged ▸ hinv.2) r hr2 hrd

/-- Witness for the amended C1 at the counterexample's concrete inputs. -/
theorem hybrid_dedup_amended_witness :
    (mergedResults dbC1 7 ['x'] 2 "hybrid" (some hitsC1)).countP
        (fun r => r.document_id == 2) = 1 ∧
      (search_documents dbC1 7 ['x'] 2 "hybrid" (some hitsC1)).countP
        (fun r => r.document_id == 2) ≤ 1 ∧
      ∀ r ∈ search_documents dbC1 7 ['x'] 2 "hybrid" (some hitsC1),
        r.document_id = 2 → r.relevance_score = lexScore :=
  hybrid_dedup_amended dbC1 7 ['x'] 2 hitsC1 2 (by decide) (by decide) (by decide)

/-! ### C10: semantic-pass snippets are head-truncations of chunk content -/

theorem semanticStep_snippet {db : DB} {acc : List SearchResult} {hit : VecHit} :
    ∀ r ∈ semanticStep db acc hit,
      r ∈ acc ∨ ∃ ch ∈ db.chunks, r.content_snippet = semSnippet ch.content := by
  intro r hr
  rcases hch : findChunk db hit.id with _ | ch
  · have hstep : semanticStep db acc hit = acc := by simp [semanticStep, hch]
    rw [hstep] at hr
    exact Or.inl hr
  rcases hdd : findDoc db ch.document_id with _ | dd
  · have hstep : semanticStep db acc hit = acc := by simp [semanticStep, hch, hdd]
    rw [hstep] at hr
    exact Or.inl hr
  by_cases hfound : (acc.find? (fun r => r.document_id == dd.id)).isSome = true
  case pos =>
    have hstep : semanticStep db acc hit = acc := by simp [semanticStep, hch, hdd, hfound]
    rw [hstep] at hr
    exact Or.inl hr
  case neg =>
    have hstep : semanticStep db acc hit =
        acc ++ [{ document_id := dd.id, filename := dd.original_filename,
                  content_snippet := semSnippet ch.content, relevance_score := hit.score }] := by
      simp [semanticStep, hch, hdd, hfound]
    rw [hstep] at hr
    rcases List.mem_append.mp hr with hr | hr
    · exact Or.inl hr
    · rcases List.mem_singleton.mp hr with rfl
      exact Or.inr ⟨ch, List.mem_of_find?_eq_some hch, rfl⟩

theorem foldl_semanticStep_snippet {db : DB} (hits : List VecHit) (acc : List SearchResult) :
    ∀ r ∈ hits.foldl (semanticStep db) acc,
      r ∈ acc ∨ ∃ ch ∈ db.chunks, r.content_snippet = semSnippet ch.content := by
  induction hits generalizing acc with
  | nil => exact fun r hr => Or.inl hr
  | cons hit hits ih =>
    intro r hr
    rcases ih (semanticStep db acc hit) r hr with h | h
    · rcases semanticStep_snippet r h with h | h
      · exact Or.inl h
      · exact Or.inr h
    · exact Or.inr h

/-- C10: every match in the merged result set that was added by the semantic
pass (that is, not one of the lexical-pass matches) takes its snippet from
the head of the matched chunk's content — the first 200 characters, with
`"..."` appended iff the chunk content is longer than 200 characters — not
from the query-centred `_extract_snippet` window used by the lexical pass. -/
theorem semantic_snippet_is_chunk_head (db : DB) (uid : Nat) (q : List Char) (limit : Nat)
    (search_type : String) (semReply : Option (List VecHit)) :
    ∀ r ∈ mergedResults db uid q limit search_type semReply,
      r ∈ lexSearchResults db uid q limit ∨
        ∃ ch ∈ db.chunks, r.content_snippet = semSnippet ch.content := by
  intro r hr
  rw [mergedResults.eq_def] at hr
  by_cases h2 : search_type = "semantic" ∨ search_type = "hybrid"
  · rw [if_pos h2] at hr
    by_cases h1 : search_type = "text" ∨ search_type = "hybrid"
    · rw [if_pos h1] at hr
      rcases semReply with _ | hits
      · exact Or.inl hr
      · exact foldl_semanticStep_snippet hits _ r hr
    · rw [if_neg h1] at hr
      rcases semReply with _ | hits
      · exact absurd hr (List.not_mem_nil r)
      · rcases foldl_semanticStep_snippet hits [] r hr with h | h
        · exact absurd h (List.not_mem_nil r)
        · exact Or.inr h
  · rw [if_neg h2] at hr
    by_cases h1 : search_type = "text" ∨ search_type = "hybrid"
    · rw [if_pos h1] at hr
      exact Or.inl hr
    · rw [if_neg h1] at hr
      exact absurd hr (List.not_mem_nil r)

/-- Witness for C10: the semantic-pass match for document 3 in the concrete
hybrid call carries the chunk-head snippet. -/
theorem semantic_snippet_is_chunk_head_witness :
    (⟨3, "b.txt".toList, semSnippet "chunk of b".toList, mkRat 19 20⟩ : SearchResult) ∈
        lexSearchResults dbC1 7 ['x'] 2 ∨
      ∃ ch ∈ dbC1.chunks,
        (⟨3, "b.txt".toList, semSnippet "chunk of b".toList, mkRat 19 20⟩ :
          SearchResult).content_snippet = semSnippet ch.content :=
  semantic_snippet_is_chunk_head dbC1 7 ['x'] 2 "hybrid" (some hitsC1) _ (by decide)

/-! ### C5 and C7: `find_similar_documents` -/

theorem foldl_similarChunkStep_queries (db : DB) (docId limit uid : Nat)
    (idx : VecQuery → List VecHit) (chs : List Chunk)
    (st : List SearchResult × List VecQuery) :
    (chs.foldl (similarChunkStep db docId limit uid idx) st).2 =
      st.2 ++ chs.filterMap (fun c => c.embedding.map
        (fun e => ({ vec := e, top_k := limit * 2, user := uid } : VecQuery))) := by
  induction chs generalizing st with
  | nil => simp
  | cons c cs ih =>
    rcases hemb : c.embedding with _ | emb
    · have hstep : similarChunkStep db docId limit uid idx st c = st := by
        simp [similarChunkStep, hemb]
      rw [List.foldl_cons, hstep, ih, List.filterMap_cons, hemb]
      simp
    · have hstep : similarChunkStep db docId limit uid idx st c =
          ((idx { vec := emb, top_k := limit * 2, user := uid }).foldl
            (similarStep db docId) st.1,
           st.2 ++ [{ vec := emb, top_k := limit * 2, user := uid }]) := by
        simp [similarChunkStep, hemb]
      rw [List.foldl_cons, hstep, ih, List.filterMap_cons, hemb]
      simp

/-- C5: a `find_similar_documents` call that returns issues exactly one
vector-index query per chunk, for the chunks among the source document's
first 3 that have a stored embedding, each asking for `limit * 2` nearest
neighbours filtered by the owner, in chunk order. -/
theorem find_similar_queries_rule (db : DB) (docId limit uid : Nat)
    (idx : VecQuery → List VecHit) (res : List SearchResult) (qs : List VecQuery)
    (h : find_similar_documents db docId limit uid idx = some (res, qs)) :
    qs = ((db.chunks.filter (fun c => c.document_id == docId)).take 3).filterMap
      (fun c => c.embedding.map
        (fun e => ({ vec := e, top_k := limit * 2, user := uid } : VecQuery))) := by
  rw [find_similar_documents.eq_def] at h
  rcases hfind : db.docs.find? (fun d => d.id == docId && d.user_id == uid) with _ | doc <;>
    rw [hfind] at h
  · exact absurd h (Option.noConfusion)
  · have h2 := Option.some.inj h
    injection h2 with h2a h2b
    rw [← h2b, foldl_similarChunkStep_queries]
    simp

/-- Witness database for C5/C7: document 1 (the source) has four chunks,
the first three with ids 10, 11, 12; chunk 11 lacks an embedding; chunk 20
belongs to document 2. -/
def dbSim : DB :=
  { docs := [⟨1, 7, "src".toList, "src doc".toList⟩,
             ⟨2, 7, "oth".toList, "other doc".toList⟩],
    chunks := [⟨10, 1, "c1".toList, some [1]⟩,
               ⟨11, 1, "c2".toList, none⟩,
               ⟨12, 1, "c3".toList, some [3]⟩,
               ⟨13, 1, "c4".toList, some [4]⟩,
               ⟨20, 2, "other chunk".toList, some [2]⟩] }

/-- The index oracle for the witness: every query returns a hit on the
source document's own chunk (score 0.99) and on document 2 (score 0.5). -/
def idxSim : VecQuery → List VecHit :=
  fun _ => [⟨10, mkRat 99 100⟩, ⟨20, mkRat 1 2⟩]

/-- The value the witness call returns. -/
def simResult : List SearchResult × List VecQuery :=
  ([⟨2, "oth".toList, semSnippet "other chunk".toList, mkRat 1 2⟩],
   [⟨[1], 10, 7⟩, ⟨[3], 10, 7⟩])

theorem find_similar_queries_rule_witness :
    simResult.2 = ((dbSim.chunks.filter (fun c => c.document_id == 1)).take 3).filterMap
      (fun c => c.embedding.map
        (fun e => ({ vec := e, top_k := 5 * 2, user := 7 } : VecQuery))) :=
  find_similar_queries_rule dbSim 1 5 7 idxSim simResult.1 simResult.2 (by decide)

theorem similarStep_ne_source {db : DB} {docId : Nat} {acc : List SearchResult} {hit : VecHit}
    (h : ∀ r ∈ acc, r.document_id ≠ docId) :
    ∀ r ∈ similarStep db docId acc hit, r.document_id ≠ docId := by
  rcases hch : findChunk db hit.id with _ | rc
  · have hstep : similarStep db docId acc hit = acc := by simp [similarStep, hch]
    rw [hstep]
    exact h
  rcases hdd : findDoc db rc.document_id with _ | dd
  · have hstep : similarStep db docId acc hit = acc := by simp [similarStep, hch, hdd]
    rw [hstep]
    exact h
  by_cases hne : dd.id ≠ docId
  case neg =>
    have hstep : similarStep db docId acc hit = acc := by simp [similarStep, hch, hdd, hne]
    rw [hstep]
    exact h
  case pos =>
    by_cases hfound : (acc.find? (fun r => r.document_id == dd.id)).isSome = true
    · have hstep : similarStep db docId acc hit = acc := by
        simp [similarStep, hch, hdd, hne, hfound]
      rw [hstep]
      exact h
    · have hstep : similarStep db docId acc hit =
          acc ++ [{ document_id := dd.id, filename := dd.original_filename,
                    content_snippet := semSnippet rc.content, relevance_score := hit.score }] := by
        simp [similarStep, hch, hdd, hne, hfound]
      rw [hstep]
      intro r hr
      rcases List.mem_append.mp hr with hr | hr
      · exact h r hr
      · rcases List.mem_singleton.mp hr with rfl
        exact hne

theorem foldl_similarStep_ne_source {db : DB} {docId : Nat} (hits : List VecHit)
    {acc : List SearchResult} (h : ∀ r ∈ acc, r.document_id ≠ docId) :
    ∀ r ∈ hits.foldl (similarStep db docId) acc, r.document_id ≠ docId := by
  induction hits generalizing acc with
  | nil => exact h
  | cons hit hits ih => exact ih (similarStep_ne_source h)

theorem foldl_similarChunkStep_ne_source (db : DB) (docId limit uid : Nat)
    (idx : VecQuery → List VecHit) (chs : List Chunk)
    (st : List SearchResult × List VecQuery)
    (h : ∀ r ∈ st.1, r.document_id ≠ docId) :
    ∀ r ∈ (chs.foldl (similarChunkStep db docId limit uid idx) st).1,
      r.document_id ≠ docId := by
  induction chs generalizing st with
  | nil => exact h
  | cons c cs ih =>
    rcases hemb : c.embedding with _ | emb
    · have hstep : similarChunkStep db docId limit uid idx st c = st := by
        simp [similarChunkStep, hemb]
      rw [List.foldl_cons, hstep]
      exact ih st h
    · have hstep : similarChunkStep db docId limit uid idx st c =
          ((idx { vec := emb, top_k := limit * 2, user := uid }).foldl
            (similarStep db docId) st.1,
           st.2 ++ [{ vec := emb, top_k := limit * 2, user := uid }]) := by
        simp [similarChunkStep, hemb]
      rw [List.foldl_cons, hstep]
      exact ih _ (foldl_similarStep_ne_source _ h)

/-- C7: a `find_similar_documents` call never returns the source document
among its matches, even when the source document's own chunks are the
nearest neighbours returned by the vector index. -/
theorem find_similar_excludes_source (db : DB) (docId limit uid : Nat)
    (idx : VecQuery → List VecHit) (res : List SearchResult) (qs : List VecQuery)
    (h : find_similar_documents db docId limit uid idx = some (res, qs)) :
    ∀ r ∈ res, r.document_id ≠ docId := by
  rw [find_similar_documents.eq_def] at h
  rcases hfind : db.docs.find? (fun d => d.id == docId && d.user_id == uid) with _ | doc <;>
    rw [hfind] at h
  · exact absurd h (Option.noConfusion)
  · have h2 := Option.some.inj h
    injection h2 with h2a h2b
    intro r hr
    rw [← h2a] at hr
    have hr2 := (sortDesc_perm _).mem_iff.mp (List.mem_of_mem_take hr)
    exact foldl_similarChunkStep_ne_source db docId limit uid idx _ ([], [])
      (fun r hr => absurd hr (List.not_mem_nil r)) r hr2

/-- Witness for C7: in the concrete call the index returns the source
document's own chunk as the top hit, yet the sole returned match names
document 2, not the source document 1. -/
theorem find_similar_excludes_source_witness :
    (⟨2, "oth".toList, semSnippet "other chunk".toList, mkRat 1 2⟩ :
      SearchResult).document_id ≠ 1 :=
  find_similar_excludes_source dbSim 1 5 7 idxSim simResult.1 simResult.2 (by decide) _
    (by decide)

/-! ### C8: `_extract_snippet` behaviour -/

/-- C8: `_extract_snippet` behaves exactly as the specification's sentence
describes on every input (case-insensitive search, `max(0, pos -
snippetLength/2)` window start, `snippetLength`-wide window, ellipses
exactly when truncated on either side, head-of-content fallback), and on
the spec's concrete example it returns `"...uick brown..."`, a roughly
10-character window containing `"brown"` with ellipses. -/
theorem extract_snippet_meets_spec :
    (∀ content query sl, extract_snippet content query sl = extractSnippetSpec content query sl) ∧
      extract_snippet "The quick brown fox jumps".toList "brown".toList 10 =
        "...uick brown...".toList ∧
      containsSub (extract_snippet "The quick brown fox jumps".toList "brown".toList 10)
        "brown".toList = true := by
  refine ⟨?_, by decide, by decide⟩
  intro content query sl
  rw [extract_snippet, extractSnippetSpec]
  by_cases hemp : content = [] ∨ query = []
  · have h1 : (content.isEmpty || query.isEmpty) = true := by
      rcases hemp with h | h <;> simp [h]
    rw [if_pos h1, if_pos hemp]
  · have h1 : (content.isEmpty || query.isEmpty) = false := by
      push_neg at hemp
      simp [List.isEmpty_iff, hemp.1, hemp.2]
    rw [if_neg (by simp [h1]), if_neg hemp]
    by_cases hpos : pyFind (content.map Char.toLower) (query.map Char.toLower) = -1
    · rw [if_pos hpos, if_pos hpos]
    · rw [if_neg hpos, if_neg hpos]
      dsimp only
      by_cases hs : 0 < (pyFind (content.map Char.toLower) (query.map Char.toLower)).toNat - sl / 2
      · by_cases he : (pyFind (content.map Char.toLower) (query.map Char.toLower)).toNat -
            sl / 2 + sl < content.length
        · rw [if_pos hs, if_pos he, if_pos hs, if_pos he] <;> simp [List.append_assoc]
        · rw [if_pos hs, if_neg he, if_pos hs, if_neg he] <;> simp
      · by_cases he : (pyFind (content.map Char.toLower) (query.map Char.toLower)).toNat -
            sl / 2 + sl < content.length
        · rw [if_neg hs, if_pos he, if_neg hs, if_pos he] <;> simp
        · rw [if_neg hs, if_neg he, if_neg hs, if_neg he] <;> simp

/-! ### Groundwork for the chunking claims: `rfind` and `pyStrip` facts -/

theorem rfind_ge_neg_one (t : List Char) (c : Char) (a b : Nat) : -1 ≤ rfind t c a b := by
  rw [rfind]
  rcases h : ((List.range' a (b - a)).filter (fun i => t.get? i == some c)).getLast? with _ | i
  · exact le_refl _
  · exact le_trans (by omega) (Int.ofNat_nonneg i)

theorem rfind_lt (t : List Char) (c : Char) (a b : Nat) : rfind t c a b < (b : Int) ∨
    rfind t c a b = -1 := by
  rw [rfind]
  rcases h : ((List.range' a (b - a)).filter (fun i => t.get? i == some c)).getLast? with _ | i
  · exact Or.inr rfl
  · left
    dsimp only
    have hmem : i ∈ (List.range' a (b - a)).filter (fun i => t.get? i == some c) :=
      List.mem_of_getLast?_eq_some h
    have hr : i ∈ List.range' a (b - a) := List.mem_of_mem_filter hmem
    rcases List.mem_range'.mp hr with ⟨j, hj, rfl⟩
    have : a + 1 * j < b := by omega
    exact_mod_cast this

theorem rfind_mem_sound {t : List Char} {c : Char} {a b : Nat} {i : Nat}
    (h : rfind t c a b = (i : Int)) :
    a ≤ i ∧ i < b ∧ t.get? i = some c := by
  rw [rfind] at h
  rcases hlast : ((List.range' a (b - a)).filter (fun i => t.get? i == some c)).getLast?
    with _ | j <;> rw [hlast] at h <;> dsimp only at h
  · exact absurd h (by omega)
  · have hj : j = i := by exact_mod_cast h
    subst hj
    have hmem : j ∈ (List.range' a (b - a)).filter (fun i => t.get? i == some c) :=
      List.mem_of_getLast?_eq_some hlast
    have hr : j ∈ List.range' a (b - a) := List.mem_of_mem_filter hmem
    have hp := List.of_mem_filter hmem
    rcases List.mem_range'.mp hr with ⟨k, hk, rfl⟩
    refine ⟨by omega, by omega, ?_⟩
    exact eq_of_beq hp

/-- `rfind` finds nothing when the sought character does not occur. -/
theorem rfind_of_not_mem {t : List Char} {c : Char} (hc : c ∉ t) (a b : Nat) :
    rfind t c a b = -1 := by
  rw [rfind]
  have hfilter : (List.range' a (b - a)).filter (fun i => t.get? i == some c) = [] := by
    rw [List.filter_eq_nil_iff]
    intro i _
    intro hbeq
    have hget : t.get? i = some c := eq_of_beq hbeq
    exact hc (List.get?_mem hget)
  rw [hfilter]
  rfl

theorem dropWhile_eq_self_of_false {p : Char → Bool} {l : List Char}
    (h : ∀ c ∈ l, p c = false) : l.dropWhile p = l := by
  cases l with
  | nil => rfl
  | cons x xs =>
    rw [List.dropWhile_cons, h x (List.mem_cons_self _ _)]
    simp

theorem pyStrip_eq_self {l : List Char} (h : ∀ c ∈ l, isPySpace c = false) :
    pyStrip l = l := by
  rw [pyStrip, dropWhile_eq_self_of_false h,
    dropWhile_eq_self_of_false (fun c hc => h c (List.mem_reverse.mp hc)),
    List.reverse_reverse]

theorem pyStrip_eq_nil_iff (l : List Char) :
    pyStrip l = [] ↔ ∀ c ∈ l, isPySpace c = true := by
  rw [pyStrip]
  constructor
  · intro h c hc
    rw [List.reverse_eq_nil_iff, List.dropWhile_eq_nil_iff] at h
    by_cases hdw : c ∈ l.dropWhile isPySpace
    · exact h c (List.mem_reverse.mpr hdw)
    · have hsplit : c ∈ l.takeWhile isPySpace ++ l.dropWhile isPySpace := by
        rw [List.takeWhile_append_dropWhile]
        exact hc
      rcases List.mem_append.mp hsplit with htw | htw
      · exact List.mem_takeWhile_imp htw
      · exact absurd htw hdw
  · intro h
    have h1 : l.dropWhile isPySpace = [] := List.dropWhile_eq_nil_iff.mpr h
    rw [h1]
    rfl

theorem pyStrip_getLast?_not_space {u : List Char} {c : Char}
    (h : (pyStrip u).getLast? = some c) : isPySpace c = false := by
  rw [pyStrip, List.getLast?_reverse] at h
  have hne : ((u.dropWhile isPySpace).reverse).dropWhile isPySpace ≠ [] := by
    intro h0
    rw [h0] at h
    exact Option.noConfusion h
  rw [List.head?_eq_head hne] at h
  have hnot := List.head_dropWhile_not isPySpace ((u.dropWhile isPySpace).reverse) hne
  injection h with h2
  rw [h2] at hnot
  simpa using hnot

/-- The final window's stripped slice is never empty: it contains the
stripped text's last character, which is not whitespace. -/
theorem pyStrip_drop_ne_nil {text : List Char} {start : Nat}
    (ht : pyStrip text ≠ []) (hs : start < (pyStrip text).length) :
    pyStrip ((pyStrip text).drop start) ≠ [] := by
  intro hnil
  have hall := (pyStrip_eq_nil_iff _).mp hnil
  have hdropne : (pyStrip text).drop start ≠ [] := by
    apply List.ne_nil_of_length_pos
    rw [List.length_drop]
    omega
  have hlq : ((pyStrip text).drop start).getLast? =
      some (((pyStrip text).drop start).getLast hdropne) :=
    List.getLast?_eq_getLast _ hdropne
  have heq : (pyStrip text).getLast? = ((pyStrip text).drop start).getLast? := by
    conv_lhs => rw [← List.take_append_drop start (pyStrip text)]
    rw [List.getLast?_append, hlq]
    rfl
  have hsp := hall _ (List.getLast_mem hdropne)
  have hns := pyStrip_getLast?_not_space (heq.trans hlq)
  rw [hns] at hsp
  exact Bool.noConfusion hsp

/-! ### C3: termination and non-emptiness of `chunk_text` -/

/-- The loop's result does not depend on the fuel once the fuel covers the
remaining distance to the end of the text: every iteration advances `start`
by at least 1, so `t.length` iterations always suffice — this is the
termination argument for the `while` loop. -/
theorem chunkLoop_fuel (t : List Char) (size overlap : Nat) :
    ∀ f g start, t.length - start ≤ f → t.length - start ≤ g →
      chunkLoop t size overlap f start = chunkLoop t size overlap g start := by
  intro f
  induction f with
  | zero =>
    intro g start hf hg
    cases g with
    | zero => rfl
    | succ g =>
      rw [chunkLoop, chunkLoop, if_neg (by omega)]
  | succ f ih =>
    intro g start hf hg
    cases g with
    | zero =>
      rw [chunkLoop, chunkLoop, if_neg (by omega)]
    | succ g =>
      rw [chunkLoop, chunkLoop]
      by_cases hstart : start < t.length
      · rw [if_pos hstart, if_pos hstart]
        dsimp only
        by_cases hfin : t.length ≤
            (if start + size < t.length then
              (if max (rfind t '.' start (start + size)) (rfind t '\n' start (start + size)) >
                  (start : Int) + (size : Int) - 200 then
                (max (rfind t '.' start (start + size))
                  (rfind t '\n' start (start + size)) + 1).toNat
              else if rfind t ' ' start (start + size) > (start : Int) + (size : Int) - 100 then
                (rfind t ' ' start (start + size)).toNat
              else start + size)
            else start + size)
        · rw [if_pos hfin, if_pos hfin]
        · rw [if_neg hfin, if_neg hfin, ih g _ (by omega) (by omega)]
      · rw [if_neg hstart, if_neg hstart]

/-- One unfolding of the loop, phrased through `specEnd` (the inline end
computation of `chunkLoop` is definitionally `specEnd`). -/
theorem chunkLoop_succ_eq (t : List Char) (size overlap fuel start : Nat) :
    chunkLoop t size overlap (fuel + 1) start =
      if start < t.length then
        (let e := if start + size < t.length then specEnd t start size else start + size
         let ch := pyStrip (pySlice t start e)
         let rest :=
           if t.length ≤ e then []
           else chunkLoop t size overlap fuel (max (start + 1) (e - overlap))
         if ch.isEmpty then rest else ch :: rest)
      else [] := by
  rw [chunkLoop]
  rfl

/-- The snapped end never exceeds the raw window end `start + size`. -/
theorem specEnd_le (t : List Char) (start size : Nat) :
    specEnd t start size ≤ start + size := by
  rw [specEnd]
  have hb : (-1 : Int) < ((start + size : Nat) : Int) + 1 := by
    have := Int.ofNat_nonneg (start + size)
    omega
  by_cases h1 : max (rfind t '.' start (start + size)) (rfind t '\n' start (start + size)) >
      (start : Int) + (size : Int) - 200
  · rw [if_pos h1]
    have hp : rfind t '.' start (start + size) < ((start + size : Nat) : Int) := by
      rcases rfind_lt t '.' start (start + size) with h | h
      · exact h
      · rw [h]; have := Int.ofNat_nonneg (start + size); omega
    have hn : rfind t '\n' start (start + size) < ((start + size : Nat) : Int) := by
      rcases rfind_lt t '\n' start (start + size) with h | h
      · exact h
      · rw [h]; have := Int.ofNat_nonneg (start + size); omega
    have hmax : max (rfind t '.' start (start + size)) (rfind t '\n' start (start + size)) <
        ((start + size : Nat) : Int) := max_lt hp hn
    rw [Int.toNat_le]
    omega
  · rw [if_neg h1]
    by_cases h2 : rfind t ' ' start (start + size) > (start : Int) + (size : Int) - 100
    · rw [if_pos h2]
      have hs : rfind t ' ' start (start + size) < ((start + size : Nat) : Int) := by
        rcases rfind_lt t ' ' start (start + size) with h | h
        · exact h
        · rw [h]; have := Int.ofNat_nonneg (start + size); omega
      rw [Int.toNat_le]
      omega
    · rw [if_neg h2]

/-- With `chunk_size ≥ 1`, the loop started inside the text never returns an
empty chunk list: the final window's slice contains the stripped text's last
character. -/
theorem chunkLoop_ne_nil (text : List Char) (size overlap : Nat) (hsize : 1 ≤ size) :
    ∀ fuel start, (pyStrip text).length - start ≤ fuel →
      start < (pyStrip text).length →
      chunkLoop (pyStrip text) size overlap fuel start ≠ [] := by
  intro fuel
  induction fuel with
  | zero =>
    intro start h1 h2
    exact absurd h1 (by omega)
  | succ fuel ih =>
    intro start h1 h2
    rw [chunkLoop_succ_eq, if_pos h2]
    dsimp only
    by_cases hcand : start + size < (pyStrip text).length
    · rw [if_pos hcand]
      have hlt : specEnd (pyStrip text) start size < (pyStrip text).length :=
        lt_of_le_of_lt (specEnd_le _ _ _) hcand
      rw [if_neg (show ¬ (pyStrip text).length ≤ specEnd (pyStrip text) start size by omega)]
      have hmax1 : start + 1 ≤ max (start + 1) (specEnd (pyStrip text) start size - overlap) :=
        le_max_left _ _
      have hmax2 : max (start + 1) (specEnd (pyStrip text) start size - overlap) <
          (pyStrip text).length :=
        max_lt (by omega) (by omega)
      have hfuel : (pyStrip text).length -
          max (start + 1) (specEnd (pyStrip text) start size - overlap) ≤ fuel :=
        le_trans (Nat.sub_le_sub_left hmax1 _) (by omega)
      have hrest := ih (max (start + 1) (specEnd (pyStrip text) start size - overlap))
        hfuel hmax2
      intro hcontra
      revert hcontra
      split <;> intro hcontra
      · exact hrest hcontra
      · exact List.cons_ne_nil _ _ hcontra
    · rw [if_neg hcand,
        if_pos (show (pyStrip text).length ≤ start + size by omega)]
      have hch : pyStrip (pySlice (pyStrip text) start (start + size)) ≠ [] := by
        rw [pySlice, List.take_of_length_le (by omega)]
        exact pyStrip_drop_ne_nil (List.ne_nil_of_length_pos (by omega)) h2
      intro hcontra
      revert hcontra
      split <;> intro hcontra
      · rename_i hemp
        exact hch (List.isEmpty_iff.mp hemp)
      · exact List.cons_ne_nil _ _ hcontra

/-- C3 counterexample: `chunk_text("ab", 0, 0)` — parameters satisfying
`overlap ≥ chunkSize` — terminates but returns the empty sequence for an
input that is non-empty after trimming, because with `chunk_size = 0` every
window is degenerate (`end = breakPoint + 1 = 0`) and no final window is
ever reached before `start` walks past the end. -/
theorem chunk_progress_counterexample :
    pyStrip "ab".toList ≠ [] ∧ chunk_text "ab".toList 0 0 = [] := by
  decide

/-- C3 amended: for every `chunk_size ≥ 1` (in particular all well-formed
parameters and all `overlap ≥ chunk_size ≥ 1`), `chunk_text` returns a
non-empty sequence on input that is non-empty after trimming; and the loop
terminates within `len(text)` iterations — its result is the same under any
fuel of at least `len(text)`, because each iteration advances `start` by at
least 1.  (For `chunk_size = 0`, a value the spec's well-formedness
constraint `chunkSize > overlap ≥ 0` already excludes, non-emptiness fails
— see the counterexample.) -/
theorem chunk_text_nonempty (text : List Char) (size overlap : Nat)
    (hsize : 1 ≤ size) (hne : pyStrip text ≠ []) :
    chunk_text text size overlap ≠ [] ∧
      ∀ fuel, (pyStrip text).length ≤ fuel →
        chunkLoop (pyStrip text) size overlap fuel 0 =
          chunkLoop (pyStrip text) size overlap (pyStrip text).length 0 := by
  have hpos : 0 < (pyStrip text).length := List.length_pos.mpr hne
  constructor
  · rw [chunk_text, if_neg hne]
    dsimp only
    by_cases hfit : (pyStrip text).length ≤ size
    · rw [if_pos hfit]
      exact List.cons_ne_nil _ _
    · rw [if_neg hfit]
      exact chunkLoop_ne_nil text size overlap hsize _ 0 (by omega) (by omega)
  · intro fuel hf
    exact chunkLoop_fuel _ _ _ fuel _ 0 (by omega) (by omega)

/-- Witness for the amended C3 with `overlap ≥ chunkSize ≥ 1`. -/
theorem chunk_text_nonempty_witness :
    chunk_text "ab".toList 1 5 ≠ [] ∧
      ∀ fuel, (pyStrip "ab".toList).length ≤ fuel →
        chunkLoop (pyStrip "ab".toList) 1 5 fuel 0 =
          chunkLoop (pyStrip "ab".toList) 1 5 (pyStrip "ab".toList).length 0 :=
  chunk_text_nonempty "ab".toList 1 5 (by decide) (by decide)

/-! ### C2: the end-of-window rule of `chunk_text` -/

theorem chunkLoop_eq_windows (t : List Char) (size overlap : Nat) :
    ∀ fuel start,
      chunkLoop t size overlap fuel start =
        ((chunkWindows t size overlap fuel start).map
          (fun w => pyStrip (pySlice t w.1 w.2))).filter (fun c => !c.isEmpty) := by
  intro fuel
  induction fuel with
  | zero => intro start; rfl
  | succ fuel ih =>
    intro start
    rw [chunkLoop_succ_eq, chunkWindows]
    by_cases hstart : start < t.length
    · rw [if_pos hstart, if_pos hstart]
      dsimp only
      set E := if start + size < t.length then specEnd t start size else start + size with hE
      rw [List.map_cons, List.filter_cons]
      dsimp only
      by_cases hemp : (pyStrip (pySlice t start E)).isEmpty
      · rw [if_pos hemp,
          if_neg (show ¬(!(pyStrip (pySlice t start E)).isEmpty) = true by simp [hemp])]
        by_cases hfin : t.length ≤ E
        · rw [if_pos hfin, if_pos hfin]
          rfl
        · rw [if_neg hfin, if_neg hfin]
          exact ih _
      · rw [if_neg hemp,
          if_pos (show (!(pyStrip (pySlice t start E)).isEmpty) = true by simp [hemp])]
        by_cases hfin : t.length ≤ E
        · rw [if_pos hfin, if_pos hfin]
          rfl
        · rw [if_neg hfin, if_neg hfin, ih]
    · rw [if_neg hstart, if_neg hstart]
      rfl

theorem chunkWindows_end_rule (t : List Char) (size overlap : Nat) :
    ∀ fuel start, ∀ w ∈ chunkWindows t size overlap fuel start,
      w.1 + size < t.length → w.2 = specEnd t w.1 size := by
  intro fuel
  induction fuel with
  | zero =>
    intro start w hw
    exact absurd hw (List.not_mem_nil w)
  | succ fuel ih =>
    intro start w hw hlt
    rw [chunkWindows] at hw
    by_cases hstart : start < t.length
    · rw [if_pos hstart] at hw
      dsimp only at hw
      rcases List.mem_cons.mp hw with rfl | hw2
      · dsimp only at hlt ⊢
        rw [if_pos hlt]
      · by_cases hfin : t.length ≤
            (if start + size < t.length then specEnd t start size else start + size)
        · rw [if_pos hfin] at hw2
          exact absurd hw2 (List.not_mem_nil w)
        · rw [if_neg hfin] at hw2
          exact ih _ w hw2 hlt
    · rw [if_neg hstart] at hw
      exact absurd hw (List.not_mem_nil w)

/-- C2: for input longer than one chunk, `chunk_text` is exactly the window
trace post-processed by strip-and-drop-empty, and every non-final window
(`start + size < len`) has its end chosen by the spec's rule (`specEnd`):
the later of the last `.`/newline if within the final 200 characters of the
window (cut after it), else the last space if within the final 100
characters (cut at it), else the raw `start + size` boundary. -/
theorem chunk_text_window_rule (text : List Char) (size overlap : Nat)
    (h : size < (pyStrip text).length) :
    chunk_text text size overlap =
      ((chunkWindows (pyStrip text) size overlap (pyStrip text).length 0).map
        (fun w => pyStrip (pySlice (pyStrip text) w.1 w.2))).filter (fun c => !c.isEmpty) ∧
      ∀ w ∈ chunkWindows (pyStrip text) size overlap (pyStrip text).length 0,
        w.1 + size < (pyStrip text).length → w.2 = specEnd (pyStrip text) w.1 size := by
  constructor
  · rw [chunk_text, if_neg (List.ne_nil_of_length_pos (by omega))]
    dsimp only
    rw [if_neg (by omega)]
    exact chunkLoop_eq_windows _ _ _ _ 0
  · exact fun w hw => chunkWindows_end_rule _ _ _ _ 0 w hw

/-- Witness for C2 on a concrete text exercising both the sentence/newline
snap and the raw cut. -/
theorem chunk_text_window_rule_witness :
    chunk_text "aaa.bbb\nccc ddd".toList 5 2 =
      ((chunkWindows (pyStrip "aaa.bbb\nccc ddd".toList) 5 2
          (pyStrip "aaa.bbb\nccc ddd".toList).length 0).map
        (fun w => pyStrip (pySlice (pyStrip "aaa.bbb\nccc ddd".toList) w.1 w.2))).filter
          (fun c => !c.isEmpty) ∧
      ∀ w ∈ chunkWindows (pyStrip "aaa.bbb\nccc ddd".toList) 5 2
          (pyStrip "aaa.bbb\nccc ddd".toList).length 0,
        w.1 + 5 < (pyStrip "aaa.bbb\nccc ddd".toList).length →
          w.2 = specEnd (pyStrip "aaa.bbb\nccc ddd".toList) w.1 5 :=
  chunk_text_window_rule "aaa.bbb\nccc ddd".toList 5 2 (by decide)

/-! ### C4: chunking coverage (split-then-rejoin) -/

theorem isPySpace_of_isLower {c : Char} (h : c.isLower = true) : isPySpace c = false := by
  have h1 : c ≠ ' ' := by intro h0; rw [h0] at h; exact absurd h (by decide)
  have h2 : c ≠ '\t' := by intro h0; rw [h0] at h; exact absurd h (by decide)
  have h3 : c ≠ '\n' := by intro h0; rw [h0] at h; exact absurd h (by decide)
  have h4 : c ≠ '\r' := by intro h0; rw [h0] at h; exact absurd h (by decide)
  have h5 : c ≠ '\x0b' := by intro h0; rw [h0] at h; exact absurd h (by decide)
  have h6 : c ≠ '\x0c' := by intro h0; rw [h0] at h; exact absurd h (by decide)
  rw [isPySpace]
  simp [h1, h2, h3, h4, h5, h6]

theorem not_mem_of_lower {t : List Char} (hl : ∀ c ∈ t, c.isLower = true) :
    '.' ∉ t ∧ '\n' ∉ t ∧ ' ' ∉ t := by
  refine ⟨fun h => ?_, fun h => ?_, fun h => ?_⟩ <;> exact absurd (hl _ h) (by decide)

/-- For letters-only text and `size ≥ 199`, no snapping ever fires: there is
no terminator and no space, and the degenerate `-1 > start + size - 200`
branch needs `start + size < 199`. -/
theorem specEnd_letters {t : List Char} (hl : ∀ c ∈ t, c.isLower = true)
    {start size : Nat} (hsize : 199 ≤ size) :
    specEnd t start size = start + size := by
  obtain ⟨hdot, hnl, hsp⟩ := not_mem_of_lower hl
  rw [specEnd, rfind_of_not_mem hdot, rfind_of_not_mem hnl, rfind_of_not_mem hsp]
  have hc1 : ¬ (max (-1 : Int) (-1) > (start : Int) + (size : Int) - 200) := by
    rw [max_self]
    omega
  have hc2 : ¬ ((-1 : Int) > (start : Int) + (size : Int) - 100) := by omega
  rw [if_neg hc1, if_neg hc2]

theorem pySlice_lower {t : List Char} (hl : ∀ c ∈ t, c.isLower = true) (a b : Nat) :
    pyStrip (pySlice t a b) = pySlice t a b :=
  pyStrip_eq_self (fun c hc =>
    isPySpace_of_isLower (hl c (List.mem_of_mem_take (List.mem_of_mem_drop hc))))

theorem pySlice_length (t : List Char) (a b : Nat) :
    (pySlice t a b).length = min b t.length - a := by
  rw [pySlice, List.length_drop, List.length_take]

/-- The inductive heart of the coverage theorem: every chunk produced from
`start` onward matches the text at the current progress pointer `p` after
dropping its first `p - start` characters (its overlap with what has already
been matched), and the chunks jointly consume the text to its end. -/
theorem chunkLoop_recon (t : List Char) (size overlap : Nat)
    (hl : ∀ c ∈ t, c.isLower = true) (hsize : 199 ≤ size) :
    ∀ fuel start p, t.length - start ≤ fuel → start < t.length → p < t.length →
      start ≤ p → p ≤ start + size →
      canReconAux (chunkLoop t size overlap fuel start) (t.drop p) = true := by
  intro fuel
  induction fuel with
  | zero =>
    intro start p h1 h2 _ _ _
    exact absurd h1 (by omega)
  | succ fuel ih =>
    intro start p h1 h2 hpn hsp hpe
    rw [chunkLoop_succ_eq, if_pos h2]
    dsimp only
    have hEeq : (if start + size < t.length then specEnd t start size else start + size) =
        start + size := by
      by_cases hc : start + size < t.length
      · rw [if_pos hc, specEnd_letters hl hsize]
      · rw [if_neg hc]
    rw [hEeq, pySlice_lower hl]
    have hlen : (pySlice t start (start + size)).length = min (start + size) t.length - start :=
      pySlice_length t start (start + size)
    have hne : pySlice t start (start + size) ≠ [] := by
      apply List.ne_nil_of_length_pos
      rw [hlen]
      omega
    rw [if_neg (show ¬ (pySlice t start (start + size)).isEmpty = true by
      simpa [List.isEmpty_iff] using hne)]
    rw [canReconAux, List.any_eq_true]
    have hpmin : p ≤ min (start + size) t.length := le_min hpe (le_of_lt hpn)
    refine ⟨p - start, List.mem_range.mpr (by rw [hlen]; omega), ?_⟩
    rw [Bool.and_eq_true]
    constructor
    · rw [pySlice, List.drop_drop, show start + (p - start) = p from by omega,
        show start + size = p + (start + size - p) from by omega, ← List.take_drop]
      have hpre := List.take_prefix (start + size - p) (t.drop p)
      exact List.isPrefixOf_iff_prefix.mpr hpre
    · have hdd : (t.drop p).drop ((pySlice t start (start + size)).length - (p - start)) =
          t.drop (min (start + size) t.length) := by
        rw [hlen, List.drop_drop,
          show p + (min (start + size) t.length - start - (p - start)) =
            min (start + size) t.length from by omega]
      rw [hdd]
      by_cases hfin : t.length ≤ start + size
      · rw [if_pos hfin, min_eq_right hfin, List.drop_length]
        rfl
      · rw [if_neg hfin, min_eq_left (by omega)]
        apply ih
        · exact le_trans (Nat.sub_le_sub_left (le_max_left _ _) _) (by omega)
        · exact max_lt (by omega) (by omega)
        · omega
        · exact max_le (by omega) (by omega)
        · have := le_max_left (start + 1) (start + size - overlap)
          omega

/-- The head version: the first chunk emitted from `start` matches
`t.drop start` in full (no overlap to drop). -/
theorem chunkLoop_recon_head (t : List Char) (size overlap : Nat)
    (hl : ∀ c ∈ t, c.isLower = true) (hsize : 199 ≤ size) :
    ∀ fuel start, t.length - start ≤ fuel → start < t.length →
      canRecon (chunkLoop t size overlap fuel start) (t.drop start) = true := by
  intro fuel start h1 h2
  cases fuel with
  | zero => exact absurd h1 (by omega)
  | succ fuel =>
    rw [chunkLoop_succ_eq, if_pos h2]
    dsimp only
    have hEeq : (if start + size < t.length then specEnd t start size else start + size) =
        start + size := by
      by_cases hc : start + size < t.length
      · rw [if_pos hc, specEnd_letters hl hsize]
      · rw [if_neg hc]
    rw [hEeq, pySlice_lower hl]
    have hlen : (pySlice t start (start + size)).length = min (start + size) t.length - start :=
      pySlice_length t start (start + size)
    have hne : pySlice t start (start + size) ≠ [] := by
      apply List.ne_nil_of_length_pos
      rw [hlen]
      omega
    rw [if_neg (show ¬ (pySlice t start (start + size)).isEmpty = true by
      simpa [List.isEmpty_iff] using hne)]
    rw [canRecon, Bool.and_eq_true]
    constructor
    · rw [pySlice, ← List.take_drop]
      have hpre := List.take_prefix size (t.drop start)
      exact List.isPrefixOf_iff_prefix.mpr hpre
    · have hdd : (t.drop start).drop (pySlice t start (start + size)).length =
          t.drop (min (start + size) t.length) := by
        rw [hlen, List.drop_drop,
          show start + (min (start + size) t.length - start) =
            min (start + size) t.length from by omega]
      rw [hdd]
      by_cases hfin : t.length ≤ start + size
      · rw [if_pos hfin, min_eq_right hfin, List.drop_length]
        rfl
      · rw [if_neg hfin, min_eq_left (by omega)]
        apply chunkLoop_recon t size overlap hl hsize
        · exact le_trans (Nat.sub_le_sub_left (le_max_left _ _) _) (by omega)
        · exact max_lt (by omega) (by omega)
        · omega
        · exact max_le (by omega) (by omega)
        · have := le_max_left (start + 1) (start + size - overlap)
          omega

/-- The text used by the C4 counterexample: 120 `a`s, one space, 85 `b`s. -/
def textC4 : List Char := List.replicate 120 'a' ++ [' '] ++ List.replicate 85 'b'

set_option maxRecDepth 20000 in
/-- C4 counterexample: for this lowercase-and-spaces text and parameters
`chunk_size = 199`, `overlap = 0`, the two chunks are the 120 `a`s and the
85 `b`s — the separating space is dropped by the boundary snap and the
`strip()` of the second slice — so no assignment of overlap-drops
reconstructs the trimmed original: the split-then-rejoin round trip loses
the space. -/
theorem chunk_recon_counterexample :
    (∀ c ∈ textC4, c.isLower = true ∨ c = ' ') ∧
      canRecon (chunk_text textC4 199 0) (pyStrip textC4) = false := by
  decide

/-- C4 amended: for text composed only of lowercase letters (no spaces, so
no character can be silently stripped at a snapped boundary) and any
`chunk_size ≥ 199` (large enough that the degenerate `breakPoint = -1`
branch never fires) and any overlap, the concatenation of the chunks, after
dropping from each chunk its overlap region with its predecessor,
reconstructs the trimmed original text exactly. -/
theorem chunk_text_recon_letters (text : List Char) (size overlap : Nat)
    (hl : ∀ c ∈ text, c.isLower = true) (hsize : 199 ≤ size) :
    canRecon (chunk_text text size overlap) (pyStrip text) = true := by
  have hstrip : pyStrip text = text :=
    pyStrip_eq_self (fun c hc => isPySpace_of_isLower (hl c hc))
  have hl2 : ∀ c ∈ pyStrip text, c.isLower = true := by
    rw [hstrip]
    exact hl
  rw [chunk_text]
  by_cases hnil : pyStrip text = []
  · rw [if_pos hnil, hnil]
    rfl
  · rw [if_neg hnil]
    dsimp only
    by_cases hfit : (pyStrip text).length ≤ size
    · rw [if_pos hfit, canRecon, Bool.and_eq_true]
      refine ⟨?_, by rw [List.drop_length]; rfl⟩
      exact List.isPrefixOf_iff_prefix.mpr (List.prefix_refl _)
    · rw [if_neg hfit]
      have h0 := chunkLoop_recon_head (pyStrip text) size overlap hl2 hsize
        (pyStrip text).length 0 (by omega) (List.length_pos.mpr hnil)
      rwa [List.drop_zero] at h0

set_option maxRecDepth 20000 in
/-- Witness for the amended C4 on a 250-letter text split into overlapping
chunks. -/
theorem chunk_text_recon_letters_witness :
    canRecon (chunk_text (List.replicate 250 'a') 199 50)
      (pyStrip (List.replicate 250 'a')) = true :=
  chunk_text_recon_letters (List.replicate 250 'a') 199 50 (by decide) (by decide)

end BKP
